import Mathlib

/-!
# Verification of the chapter-split tool (`split.py`)

A shallow embedding of the chapter-metadata parsing core of `split.py`:
`normalize`, `get_chapters`, `get_output_name`, `write_chapters`, and the
post-probe part of `main`.  Text is modelled as `List Char`; the probe output
is modelled as the list of its lines (the result of `splitlines`).  The two
`re.match` patterns are deterministic (each repetition class is followed by a
character outside the class), so they are embedded as maximal-munch parsers.
Python's `\d` is modelled as an ASCII digit (the probe output is ASCII).
`unicodedata.normalize('NFKC', ·)` is an external Unicode library function and
is kept as an explicit parameter `nfkc`.
-/

namespace ChapterSplit

/-- A chapter record as built by `get_chapters`: `(title, start, end)`,
all three as raw text. -/
abbrev Chapter := List Char × List Char × List Char

/-- `str.translate({8217: "'"})` inside `normalize`: replace every
U+2019 right single quotation mark by the ASCII apostrophe. -/
def translate2019 (s : List Char) : List Char :=
  s.map fun c => if c.toNat = 8217 then '\'' else c

/-- `normalize(title)` from split.py, parameterized over `nfkc`, the embedding
of the external `unicodedata.normalize('NFKC', ·)`. -/
def normalize (nfkc : List Char → List Char) (title : List Char) : List Char :=
  translate2019 (nfkc title)

/-- Match a literal pattern fragment at the front of a line, returning the
rest of the line. -/
def stripLit : List Char → List Char → Option (List Char)
  | [], l => some l
  | _ :: _, [] => none
  | p :: ps, c :: cs => if c = p then stripLit ps cs else none

/-- Character class `[\d.]` of the chapter pattern. -/
def isNumCh (c : Char) : Bool := c.isDigit || c = '.'

/-- `re.match(r'      title           : (.*)', line)`, returning group 1.
The pattern is a literal prefix (6 spaces, `title`, 11 spaces, colon, space)
and `(.*)` captures the rest of the line. -/
def titleMatch (line : List Char) : Option (List Char) :=
  stripLit "      title           : ".data line

/-- `re.match(r'    Chapter #\d+[.:]\d+: start ([\d.]+), end ([\d.]+)', line)`,
returning groups 1 and 2.  Each `+`-class is followed by a literal character
outside the class, so greedy matching is maximal munch. -/
def chapterMatch (line : List Char) : Option (List Char × List Char) :=
  match stripLit "    Chapter #".data line with
  | none => none
  | some r1 =>
    let d1 := r1.takeWhile Char.isDigit
    let r2 := r1.dropWhile Char.isDigit
    if d1.isEmpty then none else
    match r2 with
    | [] => none
    | c :: r3 =>
      if c = '.' ∨ c = ':' then
        let d2 := r3.takeWhile Char.isDigit
        let r4 := r3.dropWhile Char.isDigit
        if d2.isEmpty then none else
        match stripLit ": start ".data r4 with
        | none => none
        | some r5 =>
          let s := r5.takeWhile isNumCh
          let r6 := r5.dropWhile isNumCh
          if s.isEmpty then none else
          match stripLit ", end ".data r6 with
          | none => none
          | some r7 =>
            let e := r7.takeWhile isNumCh
            if e.isEmpty then none else some (s, e)
      else none

/-- One dict comprehension of `get_chapters`:
`{i + shift: v for i, o in enumerate(f(line) for line in lines) if o is not None}`,
as an association list keyed by `Int` (for the titles dict the shift is `-2`,
so keys may be negative), with `n` the index of the first line. -/
def scanEntriesFrom {β : Type} (f : List Char → Option β) (shift : Int) :
    Nat → List (List Char) → List (Int × β)
  | _, [] => []
  | n, line :: rest =>
    match f line with
    | some v => ((n : Int) + shift, v) :: scanEntriesFrom f shift (n + 1) rest
    | none => scanEntriesFrom f shift (n + 1) rest

/-- `scanEntriesFrom` started at line 0 (as `enumerate` does). -/
def scanEntries {β : Type} (f : List Char → Option β) (shift : Int)
    (lines : List (List Char)) : List (Int × β) :=
  scanEntriesFrom f shift 0 lines

/-- The `titles` dict of `get_chapters`: line positions matching the title
pattern, offset backward by 2, mapped to the normalized captured title. -/
def titleEntries (nfkc : List Char → List Char) (lines : List (List Char)) :
    List (Int × List Char) :=
  scanEntries (fun line => (titleMatch line).map (normalize nfkc)) (-2) lines

/-- The `markers` dict of `get_chapters`: line positions matching the chapter
pattern, mapped to the captured `(start, end)` pair. -/
def markerEntries (lines : List (List Char)) :
    List (Int × (List Char × List Char)) :=
  scanEntries chapterMatch 0 lines

/-- `indices = sorted(set(titles.keys()) & set(markers.keys()))`. -/
def chapterIndices (nfkc : List Char → List Char) (lines : List (List Char)) :
    List Int :=
  List.insertionSort (· ≤ ·)
    (((titleEntries nfkc lines).map Prod.fst) ∩
      ((markerEntries lines).map Prod.fst))

/-- `chapters = [(titles[i], markers[i][0], markers[i][1]) for i in indices]`.
Dict access is embedded as association-list lookup; on every `i ∈ indices`
both lookups succeed, so the `filterMap` acts as a total `map`. -/
def chapterList (nfkc : List Char → List Char) (lines : List (List Char)) :
    List Chapter :=
  (chapterIndices nfkc lines).filterMap fun p =>
    match List.lookup p (titleEntries nfkc lines),
        List.lookup p (markerEntries lines) with
    | some t, some (s, e) => some (t, s, e)
    | _, _ => none

/-- The message of the exception raised on a contiguity violation:
`"Chapters are not contiguous: %s != %s" % (ch_i[2], ch_j[1])`. -/
def contiguityMsg (e s : List Char) : List Char :=
  "Chapters are not contiguous: ".data ++ e ++ " != ".data ++ s

/-- The `for ch_i, ch_j in zip(chapters[:-1], chapters[1:])` loop: walk
adjacent pairs in order and raise on the first pair whose end text differs
from the next start text. -/
def checkContiguous : List Chapter → Except (List Char) Unit
  | a :: b :: rest =>
    if a.2.2 = b.2.1 then checkContiguous (b :: rest)
    else .error (contiguityMsg a.2.2 b.2.1)
  | _ => .ok ()

/-- `get_chapters`, from the probe text onward (the `ffprobe` subprocess call
is the I/O boundary; its `splitlines()` output is the `lines` argument).
A raised exception is embedded as `Except.error` carrying the message.
The `print` calls on the empty-indices path have no effect on the result. -/
def get_chapters (nfkc : List Char → List Char) (lines : List (List Char)) :
    Except (List Char) (List Chapter) :=
  let chapters := chapterList nfkc lines
  match checkContiguous chapters with
  | .error m => .error m
  | .ok () => .ok chapters

/-- Decimal digit characters of `n`, most significant first, with explicit
fuel so that the definition is structurally recursive. -/
def natDigitsAux : Nat → Nat → List Char
  | 0, _ => []
  | fuel + 1, n =>
    if n < 10 then [Nat.digitChar n]
    else natDigitsAux fuel (n / 10) ++ [Nat.digitChar (n % 10)]

/-- Decimal digit characters of `n`, most significant first (`'%d' % n`). -/
def natDigits (n : Nat) : List Char :=
  natDigitsAux (n + 1) n

/-- `'%02d' % n`: the decimal representation padded to width 2 with zeros. -/
def pyFmt02 (n : Nat) : List Char :=
  List.replicate (2 - (natDigits n).length) '0' ++ natDigits n

/-- `get_output_name(i, title)`: `'%02d. %s' % (i+1, title.replace('/', '_'))`. -/
def get_output_name (i : Nat) (title : List Char) : List Char :=
  pyFmt02 (i + 1) ++ ". ".data ++ title.map fun c => if c = '/' then '_' else c

/-- The lines written by `write_chapters`, starting at chapter index `i`:
one `'%s\t%s\t%s\n' % (start, end, get_output_name(i, title))` per record. -/
def writeLinesFrom : Nat → List Chapter → List Char
  | _, [] => []
  | i, (t, s, e) :: rest =>
    s ++ ('\t' :: (e ++ ('\t' :: (get_output_name i t ++
      ('\n' :: writeLinesFrom (i + 1) rest)))))

/-- `write_chapters(fp, chapters)`: the full text written to the plan file
(the `fp.flush()` is an I/O effect with no bearing on the content). -/
def write_chapters (chapters : List Chapter) : List Char :=
  writeLinesFrom 0 chapters

/-- The external effects of `main` after probing, in program order. -/
inductive Action : Type where
  | deriveAudio : Action
  | writePlan : Action
  | splitAudio : Action
  | tagTrack : Nat → Action
deriving DecidableEq

/-- The tail of `main` after `get_chapters` (split.py lines 145-173) on the
success path of the external processes: raise `"get_chapters returned
nothing"` if the chapter list is empty, otherwise derive the mp3, write the
plan, run the splitter, and tag each track.  The model records which external
effects occur together with the run's outcome. -/
def mainAfterProbe (nfkc : List Char → List Char) (lines : List (List Char)) :
    List Action × Except (List Char) Unit :=
  match get_chapters nfkc lines with
  | .error m => ([], .error m)
  | .ok chapters =>
    if chapters.isEmpty then ([], .error "get_chapters returned nothing".data)
    else
      ([Action.deriveAudio, Action.writePlan, Action.splitAudio] ++
        (List.range chapters.length).map Action.tagTrack, .ok ())

/-! ## Claim-side (spec-worded) definitions -/

/-- Claim side: line position `p` holds an aligned block — a chapter-span
match at `p` and a title match at `p + 2`. -/
def alignedAt (lines : List (List Char)) (p : Nat) : Bool :=
  ((lines.get? p).bind chapterMatch).isSome &&
    ((lines.get? (p + 2)).bind titleMatch).isSome

/-- Claim side: the aligned line positions, ascending, as `Int` keys. -/
def alignedPositionsZ (lines : List (List Char)) : List Int :=
  ((List.range lines.length).filter (alignedAt lines)).map Int.ofNat

/-- Claim side: the records of the aligned positions in ascending line-position
order, each joining the normalized title at `p + 2` with the span at `p`. -/
def specChapterList (nfkc : List Char → List Char) (lines : List (List Char)) :
    List Chapter :=
  ((List.range lines.length).filter (alignedAt lines)).map fun p =>
    (normalize nfkc (((lines.get? (p + 2)).bind titleMatch).getD []),
      (((lines.get? p).bind chapterMatch).getD ([], [])).1,
      (((lines.get? p).bind chapterMatch).getD ([], [])).2)

/-- Claim side: adjacent pair `k` of the chapter list mismatches. -/
def mismatchAt (chs : List Chapter) (k : Nat) : Prop :=
  ∃ a b, chs.get? k = some a ∧ chs.get? (k + 1) = some b ∧ a.2.2 ≠ b.2.1

/-- Boolean form of `mismatchAt`. -/
def mismatchB (chs : List Chapter) (k : Nat) : Bool :=
  match chs.get? k, chs.get? (k + 1) with
  | some a, some b => a.2.2 ≠ b.2.1
  | _, _ => false

instance (chs : List Chapter) : DecidablePred (mismatchAt chs) := fun k =>
  decidable_of_iff (mismatchB chs k = true) (by
    unfold mismatchAt mismatchB
    cases h1 : chs.get? k <;> cases h2 : chs.get? (k + 1) <;> simp)

/-- Split a character list at every occurrence of `sep` (the claim's
"splitting into lines" / "splitting on tab boundaries"). -/
def splitOnCh (sep : Char) : List Char → List (List Char)
  | [] => [[]]
  | c :: cs =>
    if c = sep then [] :: splitOnCh sep cs
    else
      match splitOnCh sep cs with
      | g :: gs => (c :: g) :: gs
      | [] => [[c]]

/-- Claim side: one plan line re-parsed on tab boundaries into its 3 fields. -/
def parseFields (line : List Char) : Option (List Char × List Char × List Char) :=
  match splitOnCh '\t' line with
  | [a, b, c] => some (a, b, c)
  | _ => none

/-- Claim side: parse every line. -/
def parseLines : List (List Char) → Option (List (List Char × List Char × List Char))
  | [] => some []
  | l :: ls =>
    match parseFields l, parseLines ls with
    | some t, some ts => some (t :: ts)
    | _, _ => none

/-- Claim side: split the plan text into lines (dropping the field left after
the trailing newline, as `splitlines` does) and parse each line. -/
def parsePlan (txt : List Char) : Option (List (List Char × List Char × List Char)) :=
  let ls := splitOnCh '\n' txt
  let ls := if ls.getLast? = some [] then ls.dropLast else ls
  parseLines ls

/-- Claim side: the plan lines (without their terminating newline) written for
the records starting at index `n`. -/
def linesFrom : Nat → List Chapter → List (List Char)
  | _, [] => []
  | n, (t, s, e) :: rest =>
    (s ++ ('\t' :: (e ++ ('\t' :: get_output_name n t)))) :: linesFrom (n + 1) rest

/-- Claim side: the `(start, end, output name)` triples of the records,
starting at index `n`. -/
def triplesFrom : Nat → List Chapter → List (List Char × List Char × List Char)
  | _, [] => []
  | n, (t, s, e) :: rest => (s, e, get_output_name n t) :: triplesFrom (n + 1) rest

/-- Claim side: a text fragment is free of tab and newline characters. -/
def noTabNL (l : List Char) : Prop := ∀ c ∈ l, c ≠ '\t' ∧ c ≠ '\n'

instance (l : List Char) : Decidable (noTabNL l) :=
  inferInstanceAs (Decidable (∀ c ∈ l, c ≠ '\t' ∧ c ≠ '\n'))

/-- Claim side: "2-digit zero-padded decimal representation" — a single-digit
number gets one leading zero, larger numbers keep their full representation. -/
def zeroPad2 (n : Nat) : List Char :=
  if n < 10 then '0' :: natDigits n else natDigits n

/-- Decimal value of a digit string (`foldl`-style), to state numeric claims
about captured digit text. -/
def charsVal (l : List Char) : Nat :=
  l.foldl (fun a c => 10 * a + (c.toNat - 48)) 0

instance {ε α : Type} [DecidableEq ε] [DecidableEq α] :
    DecidableEq (Except ε α) := fun x y =>
  match x, y with
  | .ok a, .ok b =>
    if h : a = b then .isTrue (congrArg Except.ok h)
    else .isFalse fun hh => h (Except.ok.inj hh)
  | .error a, .error b =>
    if h : a = b then .isTrue (congrArg Except.error h)
    else .isFalse fun hh => h (Except.error.inj hh)
  | .ok _, .error _ => .isFalse nofun
  | .error _, .ok _ => .isFalse nofun

/-! ## Concrete probe texts used as witnesses -/

/-- Two aligned, contiguous chapter blocks. -/
def exLinesOk : List (List Char) :=
  ["    Chapter #0:0: start 0.0, end 10.0".data,
   "    Metadata:".data,
   "      title           : Intro".data,
   "    Chapter #0:1: start 10.0, end 25.5".data,
   "".data,
   "      title           : Track One".data]

/-- Two aligned blocks whose boundary values `10.0` and `10.00` denote the
same number but differ as text. -/
def exLinesGap : List (List Char) :=
  ["    Chapter #0:0: start 0.0, end 10.0".data,
   "".data,
   "      title           : Intro".data,
   "    Chapter #0:1: start 10.00, end 25.5".data,
   "".data,
   "      title           : Track One".data]

/-- An unpaired chapter line (no title two lines below) and an unpaired title
line (no chapter line two lines above). -/
def exLinesOrphan : List (List Char) :=
  ["    Chapter #0:0: start 5, end 7".data,
   "".data,
   "x".data,
   "".data,
   "".data,
   "      title           : Orphan".data]

/-- A single aligned block whose span has `start > end`. -/
def exLinesRev : List (List Char) :=
  ["    Chapter #0:0: start 5, end 3".data,
   "".data,
   "      title           : T".data]

/-- Probe text with no chapter metadata at all. -/
def exLinesNone : List (List Char) :=
  ["Input #0, mov,mp4,m4a,3gp,3g2,mj2, from 'in.m4b':".data,
   "  Duration: 00:00:10.00".data]

/-! ## Lemmas about digits, values and names -/

lemma natDigitsAux_stable :
    ∀ (n f1 f2 : Nat), n < f1 → n < f2 → natDigitsAux f1 n = natDigitsAux f2 n := by
  intro n
  induction n using Nat.strong_induction_on with
  | _ n ih =>
    intro f1 f2 h1 h2
    match f1, f2 with
    | a + 1, b + 1 =>
      simp only [natDigitsAux]
      split
      · rfl
      · rw [ih (n / 10) (by omega) a b (by omega) (by omega)]

lemma natDigits_eq (n : Nat) :
    natDigits n =
      if n < 10 then [Nat.digitChar n]
      else natDigits (n / 10) ++ [Nat.digitChar (n % 10)] := by
  have base : natDigits n =
      if n < 10 then [Nat.digitChar n]
      else natDigitsAux n (n / 10) ++ [Nat.digitChar (n % 10)] := rfl
  rw [base]
  split
  · rfl
  · rw [natDigitsAux_stable (n / 10) n (n / 10 + 1) (by omega) (by omega)]
    rfl

lemma natDigits_length_pos (n : Nat) : 1 ≤ (natDigits n).length := by
  rw [natDigits_eq]
  split <;> simp

lemma natDigits_length_of_ten_le {n : Nat} (h : 10 ≤ n) :
    2 ≤ (natDigits n).length := by
  rw [natDigits_eq, if_neg (by omega)]
  have := natDigits_length_pos (n / 10)
  simp only [List.length_append, List.length_cons, List.length_nil]
  omega

lemma natDigits_length_of_hundred_le {n : Nat} (h : 100 ≤ n) :
    3 ≤ (natDigits n).length := by
  rw [natDigits_eq, if_neg (by omega)]
  have := natDigits_length_of_ten_le (n := n / 10) (by omega)
  simp only [List.length_append, List.length_cons, List.length_nil]
  omega

lemma digitChar_toNat : ∀ d, d < 10 → (Nat.digitChar d).toNat = 48 + d := by decide

lemma charsVal_foldl_natDigits :
    ∀ n a : Nat,
      (natDigits n).foldl (fun a c => 10 * a + (c.toNat - 48)) a =
        a * 10 ^ (natDigits n).length + n := by
  intro n
  induction n using Nat.strong_induction_on with
  | _ n ih =>
    intro a
    rw [natDigits_eq]
    split
    · rename_i h
      simp only [List.foldl_cons, List.foldl_nil, List.length_cons, List.length_nil]
      rw [digitChar_toNat n h]
      simp [pow_one]
      omega
    · rename_i h
      rw [List.foldl_append, ih (n / 10) (by omega) a]
      simp only [List.foldl_cons, List.foldl_nil, List.length_append,
        List.length_cons, List.length_nil]
      rw [digitChar_toNat (n % 10) (by omega)]
      have hmod : 48 + n % 10 - 48 = n % 10 := by omega
      rw [hmod, pow_succ]
      have hdm := Nat.div_add_mod n 10
      set L := (natDigits (n / 10)).length
      set X := a * 10 ^ L with hX
      rw [Nat.mul_comm (10 : Nat) (X + n / 10)]
      ring_nf
      omega

lemma charsVal_natDigits (n : Nat) : charsVal (natDigits n) = n := by
  unfold charsVal
  rw [charsVal_foldl_natDigits n 0]
  simp

lemma charsVal_pyFmt02 (n : Nat) : charsVal (pyFmt02 n) = n := by
  unfold charsVal pyFmt02
  rw [List.foldl_append]
  have hz : ∀ k : Nat,
      (List.replicate k '0').foldl (fun a c => 10 * a + (c.toNat - 48)) 0 = 0 := by
    intro k
    induction k with
    | zero => rfl
    | succ k ihk => simpa [List.replicate_succ] using ihk
  rw [hz]
  exact charsVal_foldl_natDigits n 0 |>.trans (by simp)

lemma pyFmt02_inj {a b : Nat} (h : pyFmt02 a = pyFmt02 b) : a = b := by
  have := congrArg charsVal h
  rwa [charsVal_pyFmt02, charsVal_pyFmt02] at this

lemma pyFmt02_eq_zeroPad2 (n : Nat) : pyFmt02 n = zeroPad2 n := by
  unfold pyFmt02 zeroPad2
  by_cases h : n < 10
  · rw [if_pos h]
    have h1 : natDigits n = [Nat.digitChar n] := by rw [natDigits_eq, if_pos h]
    rw [h1]
    rfl
  · rw [if_neg h]
    have h2 : 2 ≤ (natDigits n).length := natDigits_length_of_ten_le (by omega)
    rw [Nat.sub_eq_zero_of_le h2]
    simp

lemma translate2019_translate2019 (s : List Char) :
    translate2019 (translate2019 s) = translate2019 s := by
  unfold translate2019
  rw [List.map_map]
  refine List.map_congr_left fun c _ => ?_
  by_cases h : c.toNat = 8217
  · simp [h, Function.comp]
  · simp [h, Function.comp]

/-! ## Claims about the normalizer and output naming -/

/-- C7: the title normalizer (NFKC followed by replacing U+2019 by the ASCII
apostrophe) is idempotent.  `nfkc` embeds the external
`unicodedata.normalize('NFKC', ·)`; `h1` is the Unicode-standard idempotence
of NFKC and `h2` the Unicode-standard fact that replacing U+2019 (a starter
with no decomposition) by U+0027 (likewise) commutes with NFKC. -/
theorem claim_C7 (nfkc : List Char → List Char)
    (h1 : ∀ s, nfkc (nfkc s) = nfkc s)
    (h2 : ∀ s, nfkc (translate2019 s) = translate2019 (nfkc s))
    (x : List Char) :
    normalize nfkc (normalize nfkc x) = normalize nfkc x := by
  unfold normalize
  rw [h2, h1, translate2019_translate2019]

theorem claim_C7_witness :
    normalize id (normalize id ['d', Char.ofNat 8217]) =
      normalize id ['d', Char.ofNat 8217] :=
  claim_C7 id (fun _ => rfl) (fun _ => rfl) ['d', Char.ofNat 8217]

/-- C8: the output name is the 2-digit zero-padded decimal representation of
`i + 1`, a period and a space, then the title with every `/` replaced by `_`;
in particular index 0 with title `A/B` yields `01. A_B`. -/
theorem claim_C8 :
    (∀ (i : Nat) (t : List Char),
      get_output_name i t =
        zeroPad2 (i + 1) ++ ". ".data ++ t.map fun c => if c = '/' then '_' else c) ∧
    get_output_name 0 "A/B".data = "01. A_B".data := by
  constructor
  · intro i t
    unfold get_output_name
    rw [pyFmt02_eq_zeroPad2]
  · decide

/-- C9: output naming is injective over the index — distinct indices give
distinct names even for the same title. -/
theorem claim_C9 (i j : Nat) (t : List Char) (h : i ≠ j) :
    get_output_name i t ≠ get_output_name j t := by
  unfold get_output_name
  intro heq
  have h2 : pyFmt02 (i + 1) = pyFmt02 (j + 1) :=
    List.append_cancel_right (List.append_cancel_right heq)
  have := pyFmt02_inj h2
  omega

theorem claim_C9_witness :
    get_output_name 0 "X".data ≠ get_output_name 1 "X".data :=
  claim_C9 0 1 "X".data (by omega)

/-- C10: for `i + 1 ≥ 100` the name starts with the full (three-or-more-digit)
decimal representation of `i + 1` followed by the period-space separator —
the 2-digit padding is a minimum width, not a fixed width. -/
theorem claim_C10 (i : Nat) (t : List Char) (h : 100 ≤ i + 1) :
    get_output_name i t =
      natDigits (i + 1) ++ ". ".data ++ (t.map fun c => if c = '/' then '_' else c) ∧
    3 ≤ (natDigits (i + 1)).length := by
  have h3 : 3 ≤ (natDigits (i + 1)).length := natDigits_length_of_hundred_le h
  refine ⟨?_, h3⟩
  unfold get_output_name pyFmt02
  rw [Nat.sub_eq_zero_of_le (by omega)]
  simp

theorem claim_C10_witness :
    get_output_name 99 "X".data =
      natDigits 100 ++ ". ".data ++ ("X".data.map fun c => if c = '/' then '_' else c) ∧
    3 ≤ (natDigits 100).length :=
  claim_C10 99 "X".data (by omega)

/-! ## Lemmas about the split-plan writer and its re-parse -/

lemma splitOnCh_append_sep (sep : Char) (a r : List Char) (h : ∀ c ∈ a, c ≠ sep) :
    splitOnCh sep (a ++ sep :: r) = a :: splitOnCh sep r := by
  induction a with
  | nil => simp [splitOnCh]
  | cons c cs ih =>
    have hc : c ≠ sep := h c (by simp)
    simp only [List.cons_append, splitOnCh, if_neg hc, List.append_eq]
    rw [ih fun x hx => h x (by simp [hx])]

lemma splitOnCh_no_sep (sep : Char) (a : List Char) (h : ∀ c ∈ a, c ≠ sep) :
    splitOnCh sep a = [a] := by
  induction a with
  | nil => rfl
  | cons c cs ih =>
    have hc : c ≠ sep := h c (by simp)
    simp only [splitOnCh, if_neg hc]
    rw [ih fun x hx => h x (by simp [hx])]

lemma digitChar_not_tab_nl : ∀ d, d < 10 →
    Nat.digitChar d ≠ '\t' ∧ Nat.digitChar d ≠ '\n' := by decide

lemma natDigits_not_tab_nl (n : Nat) : noTabNL (natDigits n) := by
  induction n using Nat.strong_induction_on with
  | _ n ih =>
    intro c hc
    rw [natDigits_eq] at hc
    split at hc
    · rename_i h
      simp only [List.mem_singleton] at hc
      exact hc ▸ digitChar_not_tab_nl n h
    · rename_i h
      rcases List.mem_append.1 hc with h1 | h1
      · exact ih (n / 10) (by omega) c h1
      · simp only [List.mem_singleton] at h1
        exact h1 ▸ digitChar_not_tab_nl (n % 10) (by omega)

lemma output_name_not_tab_nl (i : Nat) (t : List Char) (h : noTabNL t) :
    noTabNL (get_output_name i t) := by
  intro c hc
  unfold get_output_name pyFmt02 at hc
  rcases List.mem_append.1 hc with h1 | h1
  · rcases List.mem_append.1 h1 with h2 | h2
    · rcases List.mem_append.1 h2 with h3 | h3
      · have := List.eq_of_mem_replicate h3
        subst this
        exact ⟨by decide, by decide⟩
      · exact natDigits_not_tab_nl (i + 1) c h3
    · have : c = '.' ∨ c = ' ' := by simpa using h2
      rcases this with rfl | rfl <;> exact ⟨by decide, by decide⟩
  · rcases List.mem_map.1 h1 with ⟨x, hx, hxe⟩
    by_cases hslash : x = '/'
    · rw [if_pos hslash] at hxe
      rw [← hxe]
      exact ⟨by decide, by decide⟩
    · rw [if_neg hslash] at hxe
      rw [← hxe]
      exact h x hx

lemma line_not_nl (n : Nat) (t s e : List Char)
    (ht : noTabNL t) (hs : noTabNL s) (he : noTabNL e) :
    ∀ c ∈ s ++ ('\t' :: (e ++ ('\t' :: get_output_name n t))), c ≠ '\n' := by
  intro c hc
  simp only [List.mem_append, List.mem_cons] at hc
  rcases hc with h1 | rfl | h1 | rfl | h1
  · exact (hs c h1).2
  · decide
  · exact (he c h1).2
  · decide
  · exact (output_name_not_tab_nl n t ht c h1).2

lemma splitOnCh_writeLinesFrom (chs : List Chapter) :
    ∀ n, (∀ ch ∈ chs, noTabNL ch.1 ∧ noTabNL ch.2.1 ∧ noTabNL ch.2.2) →
      splitOnCh '\n' (writeLinesFrom n chs) = linesFrom n chs ++ [[]] := by
  induction chs with
  | nil => intro n _; rfl
  | cons ch rest ih =>
    intro n h
    obtain ⟨t, s, e⟩ := ch
    obtain ⟨ht, hs, he⟩ := h (t, s, e) (by simp)
    have hre : writeLinesFrom n ((t, s, e) :: rest) =
        (s ++ ('\t' :: (e ++ ('\t' :: get_output_name n t)))) ++
          ('\n' :: writeLinesFrom (n + 1) rest) := by
      simp [writeLinesFrom, List.append_assoc]
    rw [hre, splitOnCh_append_sep '\n' _ _ (line_not_nl n t s e ht hs he),
      ih (n + 1) fun c hc => h c (by simp [hc])]
    rfl

lemma parseFields_line (s e name : List Char)
    (hs : ∀ c ∈ s, c ≠ '\t') (he : ∀ c ∈ e, c ≠ '\t') (hn : ∀ c ∈ name, c ≠ '\t') :
    parseFields (s ++ ('\t' :: (e ++ ('\t' :: name)))) = some (s, e, name) := by
  unfold parseFields
  rw [splitOnCh_append_sep '\t' s _ hs, splitOnCh_append_sep '\t' e _ he,
    splitOnCh_no_sep '\t' name hn]

lemma parseLines_linesFrom (chs : List Chapter) :
    ∀ n, (∀ ch ∈ chs, noTabNL ch.1 ∧ noTabNL ch.2.1 ∧ noTabNL ch.2.2) →
      parseLines (linesFrom n chs) = some (triplesFrom n chs) := by
  induction chs with
  | nil => intro n _; rfl
  | cons ch rest ih =>
    intro n h
    obtain ⟨t, s, e⟩ := ch
    obtain ⟨ht, hs, he⟩ := h (t, s, e) (by simp)
    simp only [linesFrom, parseLines, triplesFrom]
    rw [parseFields_line s e (get_output_name n t)
        (fun c hc => (hs c hc).1) (fun c hc => (he c hc).1)
        (fun c hc => (output_name_not_tab_nl n t ht c hc).1),
      ih (n + 1) fun c hc => h c (by simp [hc])]

/-- C6 counterexample: a title containing a newline breaks the tab/newline
round trip, so the claim's "including when titles contain characters such as
tabs or newlines" fails. -/
theorem claim_C6_counterexample :
    parsePlan (write_chapters [(['a', '\n', 'b'], ['0'], ['1'])]) ≠
      some [(['0'], ['1'], get_output_name 0 ['a', '\n', 'b'])] := by decide

/-- C6 (amended): for chapter sequences whose titles, starts and ends are free
of tab and newline characters, the plan text is one
`start TAB end TAB name NL` line per record in index order, and re-splitting
it on newlines and tab boundaries recovers exactly the
`(start, end, output name)` triples. -/
theorem claim_C6_amended (chapters : List Chapter)
    (h : ∀ ch ∈ chapters, noTabNL ch.1 ∧ noTabNL ch.2.1 ∧ noTabNL ch.2.2) :
    parsePlan (write_chapters chapters) = some (triplesFrom 0 chapters) := by
  unfold parsePlan write_chapters
  rw [splitOnCh_writeLinesFrom chapters 0 h]
  simp only [List.getLast?_concat, List.dropLast_concat, if_pos rfl]
  exact parseLines_linesFrom chapters 0 h

/-! ## Lemmas about the extractor pipeline -/

lemma lookup_eq_none_of_ne {β : Type} (a : Int) :
    ∀ l : List (Int × β), (∀ kv ∈ l, kv.1 ≠ a) → List.lookup a l = none := by
  intro l
  induction l with
  | nil => intro _; rfl
  | cons kv t ih =>
    intro h
    obtain ⟨k, v⟩ := kv
    have hk : k ≠ a := h (k, v) (by simp)
    have hbeq : (a == k) = false := beq_eq_false_iff_ne.2 (Ne.symm hk)
    rw [List.lookup_cons, hbeq]
    exact ih fun x hx => h x (by simp [hx])

lemma scanEntriesFrom_key_lb {β : Type} (f : List Char → Option β) (shift : Int) :
    ∀ (ls : List (List Char)) (n : Nat) (kv : Int × β),
      kv ∈ scanEntriesFrom f shift n ls → (n : Int) + shift ≤ kv.1 := by
  intro ls
  induction ls with
  | nil => intro n kv h; simp [scanEntriesFrom] at h
  | cons line rest ih =>
    intro n kv h
    cases hf : f line with
    | some v =>
      rw [scanEntriesFrom, hf] at h
      rcases List.mem_cons.1 h with rfl | h2
      · simp
      · have := ih (n + 1) kv h2
        push_cast at this ⊢
        omega
    | none =>
      rw [scanEntriesFrom, hf] at h
      have := ih (n + 1) kv h
      push_cast at this ⊢
      omega

lemma scanEntriesFrom_mem_key {β : Type} (f : List Char → Option β) (shift : Int) :
    ∀ (ls : List (List Char)) (n : Nat) (k : Int),
      k ∈ (scanEntriesFrom f shift n ls).map Prod.fst ↔
        ∃ i l, ls.get? i = some l ∧ (f l).isSome = true ∧
          k = ((n + i : Nat) : Int) + shift := by
  intro ls
  induction ls with
  | nil =>
    intro n k
    simp [scanEntriesFrom]
  | cons line rest ih =>
    intro n k
    cases hf : f line with
    | some v =>
      rw [scanEntriesFrom, hf]
      simp only [List.map_cons, List.mem_cons]
      constructor
      · rintro (rfl | h2)
        · exact ⟨0, line, by simp, by simp [hf], by push_cast; ring⟩
        · obtain ⟨i, l, hgl, hfl, hk⟩ := (ih (n + 1) k).1 h2
          refine ⟨i + 1, l, by simpa using hgl, hfl, ?_⟩
          rw [hk]
          push_cast
          ring
      · rintro ⟨i, l, hgl, hfl, hk⟩
        cases i with
        | zero =>
          left
          rw [hk]
          push_cast
          ring
        | succ j =>
          right
          refine (ih (n + 1) k).2 ⟨j, l, by simpa using hgl, hfl, ?_⟩
          rw [hk]
          push_cast
          ring
    | none =>
      rw [scanEntriesFrom, hf]
      rw [ih (n + 1) k]
      constructor
      · rintro ⟨i, l, hgl, hfl, hk⟩
        refine ⟨i + 1, l, by simpa using hgl, hfl, ?_⟩
        rw [hk]
        push_cast
        ring
      · rintro ⟨i, l, hgl, hfl, hk⟩
        cases i with
        | zero =>
          rw [List.get?_cons_zero, Option.some.injEq] at hgl
          rw [← hgl, hf] at hfl
          simp at hfl
        | succ j =>
          refine ⟨j, l, by simpa using hgl, hfl, ?_⟩
          rw [hk]
          push_cast
          ring

lemma scanEntriesFrom_lookup {β : Type} (f : List Char → Option β) (shift : Int) :
    ∀ (ls : List (List Char)) (n i : Nat),
      List.lookup (((n + i : Nat) : Int) + shift) (scanEntriesFrom f shift n ls) =
        (ls.get? i).bind f := by
  intro ls
  induction ls with
  | nil => intro n i; simp [scanEntriesFrom]
  | cons line rest ih =>
    intro n i
    cases hf : f line with
    | some v =>
      rw [scanEntriesFrom, hf]
      cases i with
      | zero =>
        have hbeq : ((((n + 0 : Nat)) : Int) + shift == (n : Int) + shift) = true := by
          rw [beq_iff_eq]
          push_cast
          ring
        rw [List.lookup_cons, hbeq]
        simp [hf]
      | succ j =>
        have hbeq : ((((n + (j + 1) : Nat)) : Int) + shift == (n : Int) + shift) = false := by
          rw [beq_eq_false_iff_ne]
          push_cast
          omega
        have hkey : ((n + (j + 1) : Nat) : Int) + shift =
            (((n + 1) + j : Nat) : Int) + shift := by push_cast; ring
        rw [List.lookup_cons, hbeq, hkey, ih (n + 1) j]
        simp
    | none =>
      rw [scanEntriesFrom, hf]
      cases i with
      | zero =>
        rw [lookup_eq_none_of_ne _ _ fun kv hkv => ?_]
        · simp [hf]
        · have := scanEntriesFrom_key_lb f shift rest (n + 1) kv hkv
          intro hcon
          rw [hcon] at this
          push_cast at this
          omega
      | succ j =>
        have hkey : ((n + (j + 1) : Nat) : Int) + shift =
            (((n + 1) + j : Nat) : Int) + shift := by push_cast; ring
        rw [hkey, ih (n + 1) j]
        simp

lemma scanEntriesFrom_keys_pairwise {β : Type} (f : List Char → Option β) (shift : Int) :
    ∀ (ls : List (List Char)) (n : Nat),
      ((scanEntriesFrom f shift n ls).map Prod.fst).Pairwise (· < ·) := by
  intro ls
  induction ls with
  | nil => intro n; simp [scanEntriesFrom]
  | cons line rest ih =>
    intro n
    cases hf : f line with
    | some v =>
      rw [scanEntriesFrom, hf]
      rw [List.map_cons]
      refine List.Pairwise.cons ?_ (ih (n + 1))
      intro k hk
      rcases List.mem_map.1 hk with ⟨kv, hkv, rfl⟩
      have := scanEntriesFrom_key_lb f shift rest (n + 1) kv hkv
      push_cast at this ⊢
      omega
    | none =>
      rw [scanEntriesFrom, hf]
      exact ih (n + 1)

lemma markerEntries_lookup (lines : List (List Char)) (p : Nat) :
    List.lookup (p : Int) (markerEntries lines) = (lines.get? p).bind chapterMatch := by
  have := scanEntriesFrom_lookup chapterMatch 0 lines 0 p
  have hk : (((0 + p : Nat)) : Int) + 0 = (p : Int) := by push_cast; ring
  rwa [hk] at this

lemma titleEntries_lookup (nfkc : List Char → List Char) (lines : List (List Char)) (p : Nat) :
    List.lookup (p : Int) (titleEntries nfkc lines) =
      ((lines.get? (p + 2)).bind titleMatch).map (normalize nfkc) := by
  have := scanEntriesFrom_lookup
    (fun l => (titleMatch l).map (normalize nfkc)) (-2) lines 0 (p + 2)
  have hk : (((0 + (p + 2) : Nat)) : Int) + (-2) = (p : Int) := by push_cast; ring
  rw [hk] at this
  rw [titleEntries, scanEntries, this]
  cases lines.get? (p + 2) <;> rfl

lemma markerEntries_mem_key (lines : List (List Char)) (k : Int) :
    k ∈ (markerEntries lines).map Prod.fst ↔
      ∃ p : Nat, ((lines.get? p).bind chapterMatch).isSome = true ∧ k = (p : Int) := by
  rw [markerEntries, scanEntries, scanEntriesFrom_mem_key]
  constructor
  · rintro ⟨i, l, hgl, hfl, hk⟩
    refine ⟨i, ?_, by rw [hk]; push_cast; ring⟩
    rw [hgl]
    simpa using hfl
  · rintro ⟨p, hp, rfl⟩
    cases hgl : lines.get? p with
    | none => rw [hgl] at hp; simp at hp
    | some l =>
      rw [hgl] at hp
      simp only [Option.some_bind] at hp
      exact ⟨p, l, hgl, hp, by push_cast; ring⟩

lemma titleEntries_mem_key (nfkc : List Char → List Char) (lines : List (List Char)) (k : Int) :
    k ∈ (titleEntries nfkc lines).map Prod.fst ↔
      ∃ i : Nat, ((lines.get? i).bind titleMatch).isSome = true ∧ k = (i : Int) - 2 := by
  rw [titleEntries, scanEntries, scanEntriesFrom_mem_key]
  constructor
  · rintro ⟨i, l, hgl, hfl, hk⟩
    refine ⟨i, ?_, by rw [hk]; push_cast; ring⟩
    rw [hgl]
    simpa using hfl
  · rintro ⟨i, hp, rfl⟩
    cases hgl : lines.get? i with
    | none => rw [hgl] at hp; simp at hp
    | some l =>
      rw [hgl] at hp
      simp only [Option.some_bind] at hp
      exact ⟨i, l, hgl, by simpa using hp, by push_cast; ring⟩

lemma alignedAt_lt_length {lines : List (List Char)} {p : Nat}
    (h : alignedAt lines p = true) : p < lines.length := by
  unfold alignedAt at h
  by_contra hge
  rw [List.get?_eq_none.2 (by omega)] at h
  simp at h

lemma chapterIndices_eq (nfkc : List Char → List Char) (lines : List (List Char)) :
    chapterIndices nfkc lines = alignedPositionsZ lines := by
  have hXfilter : ((titleEntries nfkc lines).map Prod.fst) ∩
      ((markerEntries lines).map Prod.fst) =
      List.filter (fun a => List.elem a ((markerEntries lines).map Prod.fst))
        ((titleEntries nfkc lines).map Prod.fst) := rfl
  have hXp : (((titleEntries nfkc lines).map Prod.fst) ∩
      ((markerEntries lines).map Prod.fst)).Pairwise (· < ·) := by
    rw [hXfilter]
    exact (scanEntriesFrom_keys_pairwise _ _ lines 0).filter _
  have hYp : (alignedPositionsZ lines).Pairwise (· < ·) := by
    unfold alignedPositionsZ
    have h1 : ((List.range lines.length).filter (alignedAt lines)).Pairwise (· < ·) :=
      (List.sorted_lt_range lines.length).filter _
    exact List.Pairwise.map _
      (fun a b hab => by simp only [Int.ofNat_eq_natCast]; exact_mod_cast hab) h1
  have hmem : ∀ k : Int, k ∈ ((titleEntries nfkc lines).map Prod.fst) ∩
      ((markerEntries lines).map Prod.fst) ↔ k ∈ alignedPositionsZ lines := by
    intro k
    rw [hXfilter, List.mem_filter]
    simp only [List.elem_iff]
    rw [titleEntries_mem_key, markerEntries_mem_key]
    constructor
    · rintro ⟨⟨i, hti, hki⟩, ⟨p, hcp, rfl⟩⟩
      have hip : i = p + 2 := by omega
      subst hip
      have hal : alignedAt lines p = true := by
        unfold alignedAt
        rw [hcp, hti]
        rfl
      simp only [alignedPositionsZ, List.mem_map, List.mem_filter, List.mem_range,
        Int.ofNat_eq_natCast]
      exact ⟨p, ⟨alignedAt_lt_length hal, hal⟩, rfl⟩
    · intro hk
      simp only [alignedPositionsZ, List.mem_map, List.mem_filter, List.mem_range,
        Int.ofNat_eq_natCast] at hk
      obtain ⟨p, ⟨hplt, hal⟩, rfl⟩ := hk
      unfold alignedAt at hal
      rw [Bool.and_eq_true] at hal
      exact ⟨⟨p + 2, hal.2, by push_cast; ring⟩, ⟨p, hal.1, rfl⟩⟩
  have hperm : (((titleEntries nfkc lines).map Prod.fst) ∩
      ((markerEntries lines).map Prod.fst)).Perm (alignedPositionsZ lines) := by
    refine (List.perm_ext_iff_of_nodup ?_ ?_).2 hmem
    · exact hXp.imp ne_of_lt
    · exact hYp.imp ne_of_lt
  have hXs : (((titleEntries nfkc lines).map Prod.fst) ∩
      ((markerEntries lines).map Prod.fst)).Sorted (· ≤ ·) := hXp.imp le_of_lt
  unfold chapterIndices
  rw [hXs.insertionSort_eq]
  exact List.eq_of_perm_of_sorted hperm hXs (hYp.imp le_of_lt)

lemma filterMap_eq_map_of_forall {α β : Type} (l : List α) (g : α → Option β) (u : α → β)
    (h : ∀ a ∈ l, g a = some (u a)) : l.filterMap g = l.map u := by
  induction l with
  | nil => rfl
  | cons a t ih =>
    rw [List.filterMap_cons, h a (by simp), List.map_cons,
      ih fun x hx => h x (by simp [hx])]

lemma chapterList_eq_spec (nfkc : List Char → List Char) (lines : List (List Char)) :
    chapterList nfkc lines = specChapterList nfkc lines := by
  unfold chapterList specChapterList
  rw [chapterIndices_eq]
  unfold alignedPositionsZ
  rw [List.filterMap_map]
  refine filterMap_eq_map_of_forall _ _ _ fun p hp => ?_
  rw [List.mem_filter] at hp
  obtain ⟨-, hal⟩ := hp
  unfold alignedAt at hal
  rw [Bool.and_eq_true, Option.isSome_iff_exists, Option.isSome_iff_exists] at hal
  obtain ⟨⟨se, hse⟩, ⟨t, ht⟩⟩ := hal
  obtain ⟨s, e⟩ := se
  simp only [Function.comp_apply, Int.ofNat_eq_natCast]
  rw [titleEntries_lookup, markerEntries_lookup, hse, ht]
  simp

lemma get_chapters_def (nfkc : List Char → List Char) (lines : List (List Char)) :
    get_chapters nfkc lines =
      match checkContiguous (chapterList nfkc lines) with
      | .error m => .error m
      | .ok () => .ok (chapterList nfkc lines) := rfl

lemma checkContiguous_ok_iff (chs : List Chapter) :
    checkContiguous chs = .ok () ↔ chs.Chain' (fun a b => a.2.2 = b.2.1) := by
  induction chs with
  | nil => simp [checkContiguous]
  | cons a t ih =>
    cases t with
    | nil => simp [checkContiguous]
    | cons b r =>
      rw [checkContiguous]
      by_cases h : a.2.2 = b.2.1
      · rw [if_pos h, ih, List.chain'_cons]
        simp [h]
      · rw [if_neg h, List.chain'_cons]
        simp [h]

lemma get_chapters_ok_of_chain (nfkc : List Char → List Char) (lines : List (List Char))
    (h : (chapterList nfkc lines).Chain' fun a b => a.2.2 = b.2.1) :
    get_chapters nfkc lines = .ok (chapterList nfkc lines) := by
  rw [get_chapters_def, (checkContiguous_ok_iff _).2 h]

lemma chain'_iff_pairs (chs : List Chapter) :
    chs.Chain' (fun a b => a.2.2 = b.2.1) ↔
      ∀ k a b, chs.get? k = some a → chs.get? (k + 1) = some b → a.2.2 = b.2.1 := by
  induction chs with
  | nil =>
    simp only [List.chain'_nil, true_iff]
    intro k a b ha
    simp at ha
  | cons x t ih =>
    cases t with
    | nil =>
      simp only [List.chain'_singleton, true_iff]
      intro k a b ha hb
      rcases k with - | k <;> simp at hb
    | cons y r =>
      rw [List.chain'_cons, ih]
      constructor
      · rintro ⟨hxy, hrest⟩ k a b ha hb
        cases k with
        | zero =>
          rw [List.get?_cons_zero, Option.some.injEq] at ha
          have hb' : y = b := by simpa using hb
          rw [← ha, ← hb']
          exact hxy
        | succ k' => exact hrest k' a b (by simpa using ha) (by simpa using hb)
      · intro hall
        exact ⟨hall 0 x y (by simp) (by simp),
          fun k a b ha hb => hall (k + 1) a b (by simpa using ha) (by simpa using hb)⟩

lemma checkContiguous_first_error :
    ∀ (chs : List Chapter) (k : Nat) (a b : Chapter),
      chs.get? k = some a → chs.get? (k + 1) = some b → a.2.2 ≠ b.2.1 →
      (∀ j, j < k → ∀ c d, chs.get? j = some c → chs.get? (j + 1) = some d →
        c.2.2 = d.2.1) →
      checkContiguous chs = .error (contiguityMsg a.2.2 b.2.1) := by
  intro chs
  induction chs with
  | nil => intro k a b ha; simp at ha
  | cons x t ih =>
    intro k a b ha hb hne hmin
    cases k with
    | zero =>
      cases t with
      | nil => simp at hb
      | cons y r =>
        have hxa : x = a := by simpa using ha
        have hyb : y = b := by simpa using hb
        subst hxa; subst hyb
        rw [checkContiguous, if_neg hne]
    | succ k' =>
      have ha' : t.get? k' = some a := by simpa using ha
      have hb' : t.get? (k' + 1) = some b := by simpa using hb
      cases t with
      | nil => simp at ha'
      | cons y r =>
        have h0 : x.2.2 = y.2.1 := hmin 0 (by omega) x y (by simp) (by simp)
        rw [checkContiguous, if_pos h0]
        exact ih k' a b ha' hb' hne fun j hj c d hc hd =>
          hmin (j + 1) (by omega) c d (by simpa using hc) (by simpa using hd)

/-! ## Claims about the extractor -/

/-- C1: for well-formed probe text (every block aligned, spans contiguous),
extraction succeeds and returns exactly the aligned positions' records in
ascending line-position order, each joining the normalized title at `p + 2`
with the span at `p`; the record count equals the aligned-position count. -/
theorem claim_C1 (nfkc : List Char → List Char) (lines : List (List Char))
    (h : (specChapterList nfkc lines).Chain' fun a b => a.2.2 = b.2.1) :
    get_chapters nfkc lines = .ok (specChapterList nfkc lines) ∧
    (specChapterList nfkc lines).length =
      ((List.range lines.length).filter (alignedAt lines)).length := by
  have he := chapterList_eq_spec nfkc lines
  refine ⟨?_, by unfold specChapterList; rw [List.length_map]⟩
  rw [← he] at h ⊢
  exact get_chapters_ok_of_chain nfkc lines h

theorem claim_C1_witness :
    get_chapters id exLinesOk = .ok (specChapterList id exLinesOk) ∧
    (specChapterList id exLinesOk).length =
      ((List.range exLinesOk.length).filter (alignedAt exLinesOk)).length :=
  claim_C1 id exLinesOk ((checkContiguous_ok_iff _).1 (by decide))

/-- C2: contiguity is validated on the raw captured text.  If every adjacent
pair's end text equals the next start text, extraction returns the sequence;
if some adjacent pair differs (even when the two texts denote the same
number), extraction fails at the first such pair with a message that contains
both mismatched values. -/
theorem claim_C2 (nfkc : List Char → List Char) (lines : List (List Char)) :
    ((∀ k a b, (chapterList nfkc lines).get? k = some a →
        (chapterList nfkc lines).get? (k + 1) = some b → a.2.2 = b.2.1) →
      get_chapters nfkc lines = .ok (chapterList nfkc lines)) ∧
    ((∃ k, mismatchAt (chapterList nfkc lines) k) →
      ∃ k a b, (chapterList nfkc lines).get? k = some a ∧
        (chapterList nfkc lines).get? (k + 1) = some b ∧ a.2.2 ≠ b.2.1 ∧
        (∀ j, j < k → ¬ mismatchAt (chapterList nfkc lines) j) ∧
        get_chapters nfkc lines = .error (contiguityMsg a.2.2 b.2.1) ∧
        (∃ u v, u ++ (a.2.2 ++ v) = contiguityMsg a.2.2 b.2.1) ∧
        (∃ u, u ++ b.2.1 = contiguityMsg a.2.2 b.2.1)) := by
  constructor
  · intro hall
    exact get_chapters_ok_of_chain nfkc lines ((chain'_iff_pairs _).2 hall)
  · intro hex
    classical
    let k0 := Nat.find hex
    have hspec : mismatchAt (chapterList nfkc lines) k0 := Nat.find_spec hex
    have hmin : ∀ j, j < k0 → ¬ mismatchAt (chapterList nfkc lines) j :=
      fun j hj => Nat.find_min hex hj
    obtain ⟨a, b, ha, hb, hne⟩ := hspec
    have hpairs : ∀ j, j < k0 → ∀ c d, (chapterList nfkc lines).get? j = some c →
        (chapterList nfkc lines).get? (j + 1) = some d → c.2.2 = d.2.1 := by
      intro j hj c d hc hd
      by_contra hnecd
      exact hmin j hj ⟨c, d, hc, hd, hnecd⟩
    have herr := checkContiguous_first_error (chapterList nfkc lines) k0 a b ha hb hne hpairs
    refine ⟨k0, a, b, ha, hb, hne, hmin, ?_, ?_, ?_⟩
    · rw [get_chapters_def, herr]
    · exact ⟨"Chapters are not contiguous: ".data, " != ".data ++ b.2.1,
        by unfold contiguityMsg; simp [List.append_assoc]⟩
    · exact ⟨"Chapters are not contiguous: ".data ++ a.2.2 ++ " != ".data,
        by unfold contiguityMsg; simp [List.append_assoc]⟩

theorem claim_C2_witness :
    ∃ k a b, (chapterList id exLinesGap).get? k = some a ∧
      (chapterList id exLinesGap).get? (k + 1) = some b ∧ a.2.2 ≠ b.2.1 ∧
      (∀ j, j < k → ¬ mismatchAt (chapterList id exLinesGap) j) ∧
      get_chapters id exLinesGap = .error (contiguityMsg a.2.2 b.2.1) ∧
      (∃ u v, u ++ (a.2.2 ++ v) = contiguityMsg a.2.2 b.2.1) ∧
      (∃ u, u ++ b.2.1 = contiguityMsg a.2.2 b.2.1) :=
  (claim_C2 id exLinesGap).2 ⟨0, by decide⟩

/-- C3: unpaired blocks are silently dropped.  A chapter line with no title
two lines below, or a title line with no chapter line two lines above, is not
among the positions used to build records, and such blocks alone never cause
an error: whenever the built records are contiguous, extraction succeeds. -/
theorem claim_C3 (nfkc : List Char → List Char) (lines : List (List Char)) :
    (∀ p s e, ((lines.get? p).bind chapterMatch) = some (s, e) →
        ((lines.get? (p + 2)).bind titleMatch) = none →
        (p : Int) ∉ chapterIndices nfkc lines) ∧
    (∀ q t, ((lines.get? (q + 2)).bind titleMatch) = some t →
        ((lines.get? q).bind chapterMatch) = none →
        (q : Int) ∉ chapterIndices nfkc lines) ∧
    ((chapterList nfkc lines).Chain' (fun a b => a.2.2 = b.2.1) →
      get_chapters nfkc lines = .ok (chapterList nfkc lines)) := by
  refine ⟨?_, ?_, get_chapters_ok_of_chain nfkc lines⟩
  · intro p s e hcp hti hmem
    rw [chapterIndices_eq] at hmem
    simp only [alignedPositionsZ, List.mem_map, List.mem_filter, List.mem_range,
      Int.ofNat_eq_natCast] at hmem
    obtain ⟨p', ⟨-, hal⟩, hcast⟩ := hmem
    have hpp : p' = p := by exact_mod_cast hcast
    subst hpp
    unfold alignedAt at hal
    rw [hti] at hal
    simp at hal
  · intro q t hti hcp hmem
    rw [chapterIndices_eq] at hmem
    simp only [alignedPositionsZ, List.mem_map, List.mem_filter, List.mem_range,
      Int.ofNat_eq_natCast] at hmem
    obtain ⟨q', ⟨-, hal⟩, hcast⟩ := hmem
    have hqq : q' = q := by exact_mod_cast hcast
    subst hqq
    unfold alignedAt at hal
    rw [hcp] at hal
    simp at hal

theorem claim_C3_witness :
    ((0 : Int) ∉ chapterIndices id exLinesOrphan) ∧
    ((3 : Int) ∉ chapterIndices id exLinesOrphan) ∧
    get_chapters id exLinesOrphan = .ok (chapterList id exLinesOrphan) :=
  ⟨(claim_C3 id exLinesOrphan).1 0 "5".data "7".data (by decide) (by decide),
   (claim_C3 id exLinesOrphan).2.1 3 "Orphan".data (by decide) (by decide),
   (claim_C3 id exLinesOrphan).2.2 ((checkContiguous_ok_iff _).1 (by decide))⟩

/-- C4: when no position holds an aligned block, extraction returns the empty
sequence without raising, and the orchestrator then fails with the
"no chapters" error before any audio derivation, plan writing, splitting or
tagging occurs (its external-action list is empty). -/
theorem claim_C4 (nfkc : List Char → List Char) (lines : List (List Char))
    (h : ∀ p, p < lines.length → alignedAt lines p = false) :
    get_chapters nfkc lines = .ok [] ∧
    mainAfterProbe nfkc lines = ([], .error "get_chapters returned nothing".data) := by
  have hspec : specChapterList nfkc lines = [] := by
    unfold specChapterList
    rw [List.filter_eq_nil_iff.2 fun p hp => by
      rw [h p (List.mem_range.1 hp)]; exact Bool.false_ne_true]
    rfl
  have hcl : chapterList nfkc lines = [] := (chapterList_eq_spec nfkc lines).trans hspec
  have hok : get_chapters nfkc lines = .ok [] := by
    rw [get_chapters_def, hcl]
    rfl
  refine ⟨hok, ?_⟩
  unfold mainAfterProbe
  rw [hok]
  rfl

theorem claim_C4_witness :
    get_chapters id exLinesNone = .ok [] ∧
    mainAfterProbe id exLinesNone = ([], .error "get_chapters returned nothing".data) :=
  claim_C4 id exLinesNone (by decide)

/-! ## Lemmas for symbolic pattern matching (claim C5) -/

lemma takeWhile_append_of_all {p : Char → Bool} :
    ∀ a b : List Char, (∀ c ∈ a, p c = true) →
      (a ++ b).takeWhile p = a ++ b.takeWhile p := by
  intro a
  induction a with
  | nil => intro b _; rfl
  | cons c cs ih =>
    intro b h
    rw [List.cons_append, List.takeWhile_cons, h c (by simp),
      ih b fun x hx => h x (by simp [hx])]
    rfl

lemma dropWhile_append_of_all {p : Char → Bool} :
    ∀ a b : List Char, (∀ c ∈ a, p c = true) →
      (a ++ b).dropWhile p = b.dropWhile p := by
  intro a
  induction a with
  | nil => intro b _; rfl
  | cons c cs ih =>
    intro b h
    rw [List.cons_append, List.dropWhile_cons, h c (by simp)]
    exact ih b fun x hx => h x (by simp [hx])

lemma takeWhile_all_of {p : Char → Bool} (l : List Char) (h : ∀ c ∈ l, p c = true) :
    l.takeWhile p = l := by
  have := takeWhile_append_of_all l [] h
  simpa using this

lemma stripLit_self_append : ∀ p r : List Char, stripLit p (p ++ r) = some r := by
  intro p
  induction p with
  | nil => intro r; rfl
  | cons c cs ih =>
    intro r
    rw [List.cons_append, stripLit, if_pos rfl]
    exact ih r

lemma chapterMatch_block (s e : List Char) (hs : s ≠ []) (hsn : ∀ c ∈ s, isNumCh c = true)
    (he : e ≠ []) (hen : ∀ c ∈ e, isNumCh c = true) :
    chapterMatch ("    Chapter #0:0: start ".data ++ (s ++ (", end ".data ++ e))) =
      some (s, e) := by
  have hse : s.isEmpty = false := by
    cases s with
    | nil => exact absurd rfl hs
    | cons a t => rfl
  have hee : e.isEmpty = false := by
    cases e with
    | nil => exact absurd rfl he
    | cons a t => rfl
  have h1 : chapterMatch ("    Chapter #0:0: start ".data ++ (s ++ (", end ".data ++ e))) =
      (if ((s ++ (", end ".data ++ e)).takeWhile isNumCh).isEmpty then none
       else
         match stripLit ", end ".data ((s ++ (", end ".data ++ e)).dropWhile isNumCh) with
         | none => none
         | some r7 =>
           if (r7.takeWhile isNumCh).isEmpty then none
           else some ((s ++ (", end ".data ++ e)).takeWhile isNumCh,
             r7.takeWhile isNumCh)) := rfl
  have htw : (s ++ (", end ".data ++ e)).takeWhile isNumCh = s := by
    rw [takeWhile_append_of_all s _ hsn,
      show (", end ".data ++ e).takeWhile isNumCh = [] from rfl, List.append_nil]
  have hdw : (s ++ (", end ".data ++ e)).dropWhile isNumCh = ", end ".data ++ e := by
    rw [dropWhile_append_of_all s _ hsn]
    rfl
  rw [h1, htw, hdw, hse, stripLit_self_append ", end ".data e]
  show (if (e.takeWhile isNumCh).isEmpty = true then none
    else some (s, e.takeWhile isNumCh)) = some (s, e)
  rw [takeWhile_all_of e hen, hee]
  rfl

/-- C5 counterexample: `get_chapters` accepts a record whose start is not
less than its end — a single block `start 5, end 3` is returned successfully
even though 5 > 3 numerically, so no `start < end` validation exists. -/
theorem claim_C5_counterexample :
    get_chapters id exLinesRev = .ok [("T".data, "5".data, "3".data)] ∧
    charsVal "3".data ≤ charsVal "5".data := by
  constructor <;> decide

/-- C5 (amended): extraction performs no `start < end` validation at all —
any single aligned block is returned as captured, whatever the numeric order
of its span values. -/
theorem claim_C5_amended (nfkc : List Char → List Char) (s e : List Char)
    (hs : s ≠ []) (hsn : ∀ c ∈ s, isNumCh c = true)
    (he : e ≠ []) (hen : ∀ c ∈ e, isNumCh c = true) :
    get_chapters nfkc
        ["    Chapter #0:0: start ".data ++ (s ++ (", end ".data ++ e)),
         "".data,
         "      title           : T".data] =
      .ok [(normalize nfkc "T".data, s, e)] := by
  have hcm := chapterMatch_block s e hs hsn he hen
  have hte : titleEntries nfkc
      ["    Chapter #0:0: start ".data ++ (s ++ (", end ".data ++ e)),
       "".data,
       "      title           : T".data] =
      [(((2 : Nat) : Int) + (-2), normalize nfkc "T".data)] := rfl
  have hme : markerEntries
      ["    Chapter #0:0: start ".data ++ (s ++ (", end ".data ++ e)),
       "".data,
       "      title           : T".data] =
      [(((0 : Nat) : Int) + 0, (s, e))] := by
    unfold markerEntries scanEntries
    rw [scanEntriesFrom, hcm]
    rfl
  have hidx : chapterIndices nfkc
      ["    Chapter #0:0: start ".data ++ (s ++ (", end ".data ++ e)),
       "".data,
       "      title           : T".data] =
      [((2 : Nat) : Int) + (-2)] := by
    unfold chapterIndices
    rw [hte, hme]
    rfl
  have hcl : chapterList nfkc
      ["    Chapter #0:0: start ".data ++ (s ++ (", end ".data ++ e)),
       "".data,
       "      title           : T".data] =
      [(normalize nfkc "T".data, s, e)] := by
    unfold chapterList
    rw [hidx, hte, hme]
    rfl
  rw [get_chapters_def, hcl]
  rfl

theorem claim_C5_witness :
    get_chapters id
        ["    Chapter #0:0: start ".data ++ ("5".data ++ (", end ".data ++ "3".data)),
         "".data,
         "      title           : T".data] =
      .ok [(normalize id "T".data, "5".data, "3".data)] :=
  claim_C5_amended id "5".data "3".data (by decide) (by decide) (by decide) (by decide)

theorem claim_C6_witness :
    parsePlan (write_chapters
        [("Intro".data, "0.0".data, "10.0".data),
         ("Track One".data, "10.0".data, "25.5".data)]) =
      some (triplesFrom 0
        [("Intro".data, "0.0".data, "10.0".data),
         ("Track One".data, "10.0".data, "25.5".data)]) :=
  claim_C6_amended _ (by decide)

end ChapterSplit
